import Mathlib

/-!
Shallow embedding of `shuffgauss/bounds.py`: Rényi-DP accounting for shuffled
and subsampled Gaussian mechanisms and the conversion to (ε, δ)-DP.

The collaborators from the repository's `utils` module (integer-partition
enumeration, log-multinomial coefficients, the log-binomial table, the stable
log-sum-exp and the single-order RDP→DP conversion) are not part of the
sources; each is modelled from the specification's interface contracts and
marked `Modelled from the spec:` in its doc comment.  Floating-point numbers
are embedded as exact reals.
-/

/-- Modelled from the spec: `stable_logsumexp(terms)` is a numerically stable
`log(Σ exp(term_i))`; over exact reals it is exactly that. -/
noncomputable def stable_logsumexp (l : List ℝ) : ℝ :=
  Real.log (l.map Real.exp).sum

/-- Modelled from the spec: `get_binom_coeffs(lmbda)` is a table of
`log C(order, j)`; `logBinomC lmbda j` is the lookup `logBinomC[lmbda, j]`. -/
noncomputable def logBinomC (lmbda j : ℕ) : ℝ := Real.log (lmbda.choose j)

/-- Multiset of the nonzero fiber sizes of `f`: the collision pattern of `l`
items thrown onto `n` slots. -/
def fsizes {l n : ℕ} (f : Fin l → Fin n) : Multiset ℕ :=
  (Finset.univ.val.map fun y : Fin n =>
    (Finset.univ.filter fun x => f x = y).card).filter (· ≠ 0)

theorem fsizes_sum {l n : ℕ} (f : Fin l → Fin n) : (fsizes f).sum = l := by
  classical
  have hsum : (Finset.univ.val.map fun y : Fin n =>
      (Finset.univ.filter fun x => f x = y).card).sum = l := by
    have h0 := Finset.card_eq_sum_card_fiberwise
      (s := (Finset.univ : Finset (Fin l))) (t := (Finset.univ : Finset (Fin n)))
      (f := f) (fun x _ => Finset.mem_univ _)
    have h1 : (Finset.univ : Finset (Fin l)).card =
        ∑ y : Fin n, (Finset.univ.filter fun x => f x = y).card := h0
    simpa [Finset.sum] using h1.symm
  have hsplit : (fsizes f).sum
      + ((Finset.univ.val.map fun y : Fin n =>
          (Finset.univ.filter fun x => f x = y).card).filter fun a => ¬ a ≠ 0).sum
      = (Finset.univ.val.map fun y : Fin n =>
          (Finset.univ.filter fun x => f x = y).card).sum := by
    rw [fsizes, ← Multiset.sum_add, Multiset.filter_add_not]
  have hzero : ((Finset.univ.val.map fun y : Fin n =>
      (Finset.univ.filter fun x => f x = y).card).filter fun a => ¬ a ≠ 0).sum = 0 := by
    apply Multiset.sum_eq_zero
    intro a ha
    have h2 := (Multiset.mem_filter.mp ha).2
    simpa using h2
  rw [hzero, add_zero] at hsplit
  rw [hsplit, hsum]

theorem fsizes_pos {l n : ℕ} (f : Fin l → Fin n) {i : ℕ} (hi : i ∈ fsizes f) : 0 < i := by
  have h2 : i ≠ 0 := (Multiset.mem_filter.mp hi).2
  exact Nat.pos_of_ne_zero h2

/-- The integer partition of `l` given by the fiber sizes of `f`. -/
def fiberPartition {l n : ℕ} (f : Fin l → Fin n) : Nat.Partition l :=
  ⟨fsizes f, fun hi => fsizes_pos f hi, fsizes_sum f⟩

/-- Number of ways the parts of `mu` can arise as the collision pattern of `l`
items over `n` slots. -/
def multinomialCount (mu : Multiset ℕ) (l n : ℕ) : ℕ :=
  ((Finset.univ : Finset (Fin l → Fin n)).filter fun f => fsizes f = mu).card

/-- Modelled from the spec: `eff_log_multinomial_coeff(parts, n)` is the log of
the multinomial coefficient counting arrangements of the partition's parts
among `n` slots. -/
noncomputable def eff_log_multinomial_coeff {l : ℕ} (parts : Nat.Partition l) (n : ℕ) : ℝ :=
  Real.log (multinomialCount parts.parts l n)

/-- Modelled from the spec: `accel_asc(lmbda)` enumerates every integer
partition of `lmbda` exactly once. -/
noncomputable def accel_asc (lmbda : ℕ) : List (Nat.Partition lmbda) :=
  (Finset.univ : Finset (Nat.Partition lmbda)).toList

/-- Log-domain contribution of one partition inside `shuffle_gauss_rdp`
(bounds.py lines 39-47). -/
noncomputable def shuffle_term (lmbda : ℕ) (sigma0 : ℝ) (n : ℕ)
    (parts : Nat.Partition lmbda) : ℝ :=
  eff_log_multinomial_coeff parts n
    + ((((parts.parts.map fun i => i ^ 2).sum : ℕ) : ℝ) - lmbda) / (2 * sigma0 ^ 2)
    - lmbda * Real.log n

/-- Definition `shuffle_gauss_rdp(lmbda, sigma0, n)` from bounds.py lines
32-48: the shuffle Gaussian RDP at order `lmbda`. -/
noncomputable def shuffle_gauss_rdp (lmbda : ℕ) (sigma0 : ℝ) (n : ℕ) : ℝ :=
  stable_logsumexp ((accel_asc lmbda).map (shuffle_term lmbda sigma0 n))
    / ((lmbda : ℝ) - 1)

/-- Definition `_subshuff_gauss_rdp(lmbda, gamma, shuffRDPs)` from bounds.py
lines 51-69: subsampled shuffle Gaussian RDP at order `lmbda` from the
shuffle-RDP curve `shuffRDPs` (0-based: the order-`j` value sits at index
`j-1`).  The term list mirrors `moments = [0] + [term2] + termj`, where
`termj` ranges over `lmbdas[2:] = [3, ..., lmbda]`. -/
noncomputable def _subshuff_gauss_rdp (lmbda : ℕ) (gamma : ℝ) (shuffRDPs : ℕ → ℝ) : ℝ :=
  let exp_eps2 := Real.exp (shuffRDPs 1)
  let min_term2 := min (4 * exp_eps2 - 4) (2 * exp_eps2)
  let term2 := 2 * Real.log gamma + logBinomC lmbda 2 + Real.log min_term2
  let termj := (List.range' 3 (lmbda - 2)).map fun (j : ℕ) =>
    (j : ℝ) * Real.log gamma + logBinomC lmbda j + ((j : ℝ) - 1) * shuffRDPs (j - 1)
  stable_logsumexp (0 :: term2 :: termj) / ((lmbda : ℝ) - 1)

/-- The shuffle-RDP curve with population `subno`, as built by the fill loops
of bounds.py (`shuffRDPs[i-1] = shuffle_gauss_rdp(i, sigma0, subno)` for
`i > 1`): index `k` holds the order-`k+1` value for `k ≥ 1`, and index 0
(order 1) keeps the zero fill. -/
noncomputable def shuffleCurve (sigma0 : ℝ) (subno : ℕ) : ℕ → ℝ :=
  fun k => if 1 ≤ k then shuffle_gauss_rdp (k + 1) sigma0 subno else 0

/-- Definition `get_subshuff_gauss_rdp(lmbda, sigma0, gamma, subno)` from
bounds.py lines 88-102: build the shuffle curve for population `subno` (orders
`2..lmbda`; `_subshuff_gauss_rdp` reads no index beyond `lmbda - 1`) and
amplify it at rate `gamma`. -/
noncomputable def get_subshuff_gauss_rdp (lmbda : ℕ) (sigma0 gamma : ℝ) (subno : ℕ) : ℝ :=
  _subshuff_gauss_rdp lmbda gamma (shuffleCurve sigma0 subno)

/-- Check `rdps_int.any()`: the zero-curve memoization sentinel used throughout
bounds.py (true iff some entry of the length-`m` array is nonzero). -/
def anyNonzero (m : ℕ) (c : ℕ → ℝ) : Prop := ∃ k, k < m ∧ c k ≠ 0

/-- Fill loop `get_rdps` (bounds.py lines 125-143): for orders `i = 1..m` with
`i > 1`, set entry `i-1` to `f i`; index 0 (order 1) keeps its old value. -/
def fillOrders (m : ℕ) (f : ℕ → ℝ) (c : ℕ → ℝ) : ℕ → ℝ :=
  fun k => if 1 ≤ k ∧ k < m then f (k + 1) else c k

/-- Index of the first minimum of a list, as computed by `np.argmin`. -/
noncomputable def argminIdx : List ℝ → ℕ
  | [] => 0
  | a :: t => if (a : WithTop ℝ) ≤ t.minimum then 0 else argminIdx t + 1

/-- Check `_check_delta(delta)` (bounds.py lines 18-22), range part: `delta`
must lie in `[0, 1]`.  (The `type(delta) != float` check is a Python typing
concern with no real-number counterpart.) -/
def deltaOutOfRange (delta : ℝ) : Prop := delta < 0 ∨ 1 < delta

/-- Check `_check_lmbda(lmbda)` (bounds.py lines 25-29), range part: the order
must be an integer larger than 1. -/
def _check_lmbda (lmbda : ℕ) : Except String Unit :=
  if lmbda ≤ 1 then Except.error "lmbda must be larger than 1" else Except.ok ()

/-- Method `ShuffGaussRDPtoDP.get_eps(delta, coeff)` (bounds.py lines 148-171),
inherited unchanged by `SubShuffGaussRDPtoDP`, `SubGaussRDPtoDP` and
`ApproxSCIGaussRDPtoDP`.  The external single-order conversion `fun_int` is a
collaborator with no source in the repository, so it is passed as a parameter;
the method evaluates it at `(i, delta, coeff, RDPs_int)` for each order
`i = 1..m` and returns the entry `rdp2dp[bestint]` at the first minimizing
index together with `maxlmbdas[bestint] = bestint + 1`. -/
noncomputable def ShuffGauss_get_eps (funInt : ℕ → ℝ → ℕ → (ℕ → ℝ) → ℝ)
    (m : ℕ) (RDPs_int : ℕ → ℝ) (delta : ℝ) (coeff : ℕ) : Except String (ℝ × ℕ) :=
  open scoped Classical in
  if deltaOutOfRange delta then
    Except.error "delta must be between 0 and 1"
  else if anyNonzero m RDPs_int then
    let rdp2dp := (List.range m).map fun k => funInt (k + 1) delta coeff RDPs_int
    let bestint := argminIdx rdp2dp
    Except.ok (rdp2dp.getD bestint 0, bestint + 1)
  else
    Except.error "The RDPs are not initialized! Run get_shuff first!"

/-- Method `SubShuffGaussRDPtoDP.get_subshuff()` / `subshuff` (bounds.py lines
184-197): if the curve has no nonzero entry, fill orders `2..m` with the
amplified value `get_subshuff_gauss_rdp(i, sigma0, gamma, shuffn)`, where
`gamma = shuffn / n`. -/
noncomputable def SubShuff_get_subshuff (sigma0 : ℝ) (n shuffn m : ℕ)
    (c : ℕ → ℝ) : ℕ → ℝ :=
  open scoped Classical in
  if anyNonzero m c then c
  else fillOrders m
    (fun i => get_subshuff_gauss_rdp i sigma0 ((shuffn : ℝ) / n) shuffn) c

/-- Method `SubGaussRDPtoDP.shuff` / `get_shuff()` (bounds.py lines 199-216):
the overridden fill function is the closed form `x / (2 * sigma0 ** 2)`; the
inherited `get_shuff` applies it to orders `2..m` when the curve is zero. -/
noncomputable def SubGauss_get_shuff (sigma0 : ℝ) (m : ℕ) (c : ℕ → ℝ) : ℕ → ℝ :=
  open scoped Classical in
  if anyNonzero m c then c
  else fillOrders m (fun i => (i : ℝ) / (2 * sigma0 ^ 2)) c

/-- Method `ApproxSCIGaussRDPtoDP.get_subshuff()` (bounds.py lines 219-259) on
a freshly constructed accountant (all three curves zero-filled).  Returns
`(RDPs_int, single_subshuffRDPs_int, subshuffRDPs_int)`.

Step 1 runs `self.subshuffRDPs_int = self.subshuff(self.displaced_n,
self.RDPs_int)`: `subshuff` fills the array it is handed — `self.RDPs_int` —
in place, so afterwards `subshuffRDPs_int` and `RDPs_int` are the same filled
array.  Step 3's combine loop is gated on `self.RDPs_int.any() == False`. -/
noncomputable def ApproxSCI_get_subshuff (sigma0 : ℝ) (n shuffn m : ℕ)
    (err : ℝ) : (ℕ → ℝ) × (ℕ → ℝ) × (ℕ → ℝ) :=
  open scoped Classical in
  let gamma : ℝ := (shuffn : ℝ) / n
  let displaced_n : ℕ := (⌊(1 - err) * (shuffn : ℝ)⌋).toNat + 1
  let chernoff_factor : ℝ := -1 * (shuffn : ℝ) * err ^ 2 / 2
  let RDPs0 : ℕ → ℝ := fun _ => 0
  let sub0 : ℕ → ℝ := fun _ => 0
  let single0 : ℕ → ℝ := fun _ => 0
  -- step 1: `subshuff(displaced_n, RDPs_int)` (outer gate on subshuffRDPs_int)
  let filled1 : ℕ → ℝ :=
    if anyNonzero m RDPs0 then RDPs0
    else fillOrders m (fun i => get_subshuff_gauss_rdp i sigma0 gamma displaced_n) RDPs0
  let sub1 : ℕ → ℝ := if anyNonzero m sub0 then sub0 else filled1
  let RDPs1 : ℕ → ℝ := if anyNonzero m sub0 then RDPs0 else filled1
  -- step 2: `single_subshuffRDPs_int = subshuff(1, single_subshuffRDPs_int)`
  let single1 : ℕ → ℝ :=
    if anyNonzero m single0 then single0
    else fillOrders m (fun i => get_subshuff_gauss_rdp i sigma0 gamma 1) single0
  -- step 3: the Chernoff combine loop, gated on `RDPs_int.any() == False`
  let RDPs2 : ℕ → ℝ :=
    if anyNonzero m RDPs1 then RDPs1
    else fun k =>
      if 1 ≤ k ∧ k < m then
        stable_logsumexp [(((k + 1 : ℕ) : ℝ) - 1) * single1 k + chernoff_factor,
          (((k + 1 : ℕ) : ℝ) - 1) * sub1 k] / (((k + 1 : ℕ) : ℝ) - 1)
      else RDPs1 k
  (RDPs2, single1, sub1)

/-- Curve `subshuffRDPs_int` of `_SubShuffGaussRDPtoDP` after the lazy fill in
its `get_eps` (bounds.py lines 324-351): starting from the zero array, entry
`i-1` for orders `i = 2..m` becomes `subshuff(i, gamma)
= _subshuff_gauss_rdp(i, gamma, shuffRDPs_int)` where `shuffRDPs_int` is the
shuffle curve for population `subno` (also lazily filled, orders `2..m`; the
amplifier reads no index beyond `i-1`).  Each such `i` passes `_check_lmbda`. -/
noncomputable def USubShuff_subshuffCurve (sigma0 : ℝ) (n subno m : ℕ) : ℕ → ℝ :=
  fillOrders m
    (fun i => _subshuff_gauss_rdp i ((subno : ℝ) / n) (shuffleCurve sigma0 subno))
    (fun _ => 0)

/-- Method `_SubShuffGaussRDPtoDP.subshuff(lmbda, gamma)` (bounds.py lines
312-322): the only call site of `_check_lmbda`; on success it returns the
amplified value at order `lmbda`. -/
noncomputable def USubShuff_subshuff (sigma0 : ℝ) (subno : ℕ) (lmbda : ℕ)
    (gamma : ℝ) : Except String ℝ :=
  match _check_lmbda lmbda with
  | Except.error e => Except.error e
  | Except.ok _ =>
      Except.ok (_subshuff_gauss_rdp lmbda gamma (shuffleCurve sigma0 subno))

/-- Method `_SubShuffGaussRDPtoDP.get_eps(delta, coeff)` (bounds.py lines
324-351) on a freshly constructed object: it lazily fills `subshuffRDPs_int`
and then evaluates `fun_int(i - 1, delta, coeff, subshuffRDPs_int)` for
`i = 1..m` (note the `i - 1`, where the inherited public method passes `i`). -/
noncomputable def USubShuff_get_eps (funInt : ℕ → ℝ → ℕ → (ℕ → ℝ) → ℝ)
    (sigma0 : ℝ) (n subno m : ℕ) (delta : ℝ) (coeff : ℕ) : Except String (ℝ × ℕ) :=
  open scoped Classical in
  if deltaOutOfRange delta then
    Except.error "delta must be between 0 and 1"
  else
    let subcurve := USubShuff_subshuffCurve sigma0 n subno m
    let rdp2dp := (List.range m).map fun k => funInt (k + 1 - 1) delta coeff subcurve
    let bestint := argminIdx rdp2dp
    Except.ok (rdp2dp.getD bestint 0, bestint + 1)

theorem sum_map_toList {α : Type*} (s : Finset α) (f : α → ℝ) :
    (s.toList.map f).sum = ∑ x ∈ s, f x := by
  rw [← Multiset.sum_coe, ← Multiset.map_coe]
  rw [show ((s.toList : List α) : Multiset α) = s.val from Multiset.coe_toList s.val]
  rfl

theorem sum_map_rangeList (n : ℕ) (f : ℕ → ℝ) :
    ((List.range n).map f).sum = ∑ i ∈ Finset.range n, f i := by
  rw [← Multiset.sum_coe, ← Multiset.map_coe]
  rfl

theorem sum_map_rangeAux (a : ℕ) (len : ℕ) (f : ℕ → ℝ) :
    ((List.range' a len).map f).sum = ∑ i ∈ Finset.range len, f (a + i) := by
  induction len generalizing a with
  | zero => simp
  | succ k ih =>
      rw [List.range'_succ, List.map_cons, List.sum_cons, ih (a + 1),
        Finset.sum_range_succ']
      simp only [add_zero]
      rw [add_comm]
      congr 1
      apply Finset.sum_congr rfl
      intro i _
      congr 1
      omega

theorem argminIdx_lt_length {l : List ℝ} (h : l ≠ []) : argminIdx l < l.length := by
  induction l with
  | nil => exact absurd rfl h
  | cons a t ih =>
      rw [argminIdx]
      by_cases hc : (a : WithTop ℝ) ≤ t.minimum
      · simp [hc]
      · have ht : t ≠ [] := by
          rintro rfl
          exact hc le_top
        simp only [hc, if_false, List.length_cons]
        exact Nat.succ_lt_succ (ih ht)

theorem argminIdx_getD_coe {l : List ℝ} (h : l ≠ []) :
    ((l.getD (argminIdx l) 0 : ℝ) : WithTop ℝ) = l.minimum := by
  induction l with
  | nil => exact absurd rfl h
  | cons a t ih =>
      rw [argminIdx]
      by_cases hc : (a : WithTop ℝ) ≤ t.minimum
      · simp only [hc, if_true, List.getD_cons_zero, List.minimum_cons]
        exact (min_eq_left hc).symm
      · have ht : t ≠ [] := by
          rintro rfl
          exact hc le_top
        simp only [hc, if_false, List.getD_cons_succ, List.minimum_cons]
        rw [ih ht]
        exact (min_eq_right (le_of_lt (lt_of_not_le hc))).symm

theorem argminIdx_getD_le {l : List ℝ} {i : ℕ} (hi : i < l.length) :
    l.getD (argminIdx l) 0 ≤ l.getD i 0 := by
  induction l generalizing i with
  | nil => simp at hi
  | cons a t ih =>
      rw [argminIdx]
      by_cases hc : (a : WithTop ℝ) ≤ t.minimum
      · simp only [hc, if_true, List.getD_cons_zero]
        cases i with
        | zero => simp
        | succ j =>
            simp only [List.getD_cons_succ]
            have hj : j < t.length := by simpa using hi
            have hmem : t.getD j 0 ∈ t := by
              rw [List.getD_eq_getElem t 0 hj]
              exact List.getElem_mem hj
            have h2 : t.minimum ≤ ((t.getD j 0 : ℝ) : WithTop ℝ) :=
              List.minimum_le_of_mem' hmem
            exact_mod_cast le_trans hc h2
      · have ht : t ≠ [] := by
          rintro rfl
          exact hc le_top
        simp only [hc, if_false, List.getD_cons_succ]
        cases i with
        | zero =>
            simp only [List.getD_cons_zero]
            have h2 : t.minimum < (a : WithTop ℝ) := lt_of_not_le hc
            rw [← argminIdx_getD_coe ht] at h2
            exact le_of_lt (by exact_mod_cast h2)
        | succ j =>
            simp only [List.getD_cons_succ]
            exact ih (by simpa using hi)

theorem argminIdx_getD_lt {l : List ℝ} {i : ℕ} (hi : i < argminIdx l) :
    l.getD (argminIdx l) 0 < l.getD i 0 := by
  induction l generalizing i with
  | nil => simp [argminIdx] at hi
  | cons a t ih =>
      rw [argminIdx] at hi ⊢
      by_cases hc : (a : WithTop ℝ) ≤ t.minimum
      · simp [hc] at hi
      · have ht : t ≠ [] := by
          rintro rfl
          exact hc le_top
        simp only [hc, if_false] at hi ⊢
        cases i with
        | zero =>
            simp only [List.getD_cons_zero, List.getD_cons_succ]
            have h2 : t.minimum < (a : WithTop ℝ) := lt_of_not_le hc
            rw [← argminIdx_getD_coe ht] at h2
            exact_mod_cast h2
        | succ j =>
            simp only [List.getD_cons_succ]
            exact ih (by omega)

theorem stable_logsumexp_pair_gt (a b : ℝ) : b < stable_logsumexp [a, b] := by
  have hb : Real.exp b < Real.exp a + Real.exp b :=
    lt_add_of_pos_left _ (Real.exp_pos a)
  have h2 : Real.log (Real.exp b) < Real.log (Real.exp a + Real.exp b) :=
    Real.log_lt_log (Real.exp_pos b) hb
  rw [Real.log_exp] at h2
  simpa [stable_logsumexp] using h2

theorem subshuff_moments_sum_gt_one (lmbda : ℕ) (gamma : ℝ) (c : ℕ → ℝ) :
    1 < (((0 : ℝ) :: (2 * Real.log gamma + logBinomC lmbda 2
        + Real.log (min (4 * Real.exp (c 1) - 4) (2 * Real.exp (c 1))))
      :: ((List.range' 3 (lmbda - 2)).map fun (j : ℕ) =>
        (j : ℝ) * Real.log gamma + logBinomC lmbda j
          + ((j : ℝ) - 1) * c (j - 1))).map Real.exp).sum := by
  rw [List.map_cons, List.map_cons, List.sum_cons, List.sum_cons]
  have h0 : Real.exp 0 = 1 := Real.exp_zero
  have hrest : (0 : ℝ) ≤ (((List.range' 3 (lmbda - 2)).map fun (j : ℕ) =>
      (j : ℝ) * Real.log gamma + logBinomC lmbda j
        + ((j : ℝ) - 1) * c (j - 1)).map Real.exp).sum := by
    apply List.sum_nonneg
    intro x hx
    simp only [List.mem_map] at hx
    obtain ⟨y, _, rfl⟩ := hx
    exact le_of_lt (Real.exp_pos _)
  have hterm2 : 0 < Real.exp (2 * Real.log gamma + logBinomC lmbda 2
      + Real.log (min (4 * Real.exp (c 1) - 4) (2 * Real.exp (c 1)))) :=
    Real.exp_pos _
  rw [h0]
  linarith

theorem _subshuff_gauss_rdp_pos (lmbda : ℕ) (gamma : ℝ) (c : ℕ → ℝ)
    (h2 : 2 ≤ lmbda) : 0 < _subshuff_gauss_rdp lmbda gamma c := by
  rw [_subshuff_gauss_rdp]
  apply div_pos
  · exact Real.log_pos (subshuff_moments_sum_gt_one lmbda gamma c)
  · have : (2 : ℝ) ≤ (lmbda : ℝ) := by exact_mod_cast h2
    linarith

theorem shuffle_gauss_rdp_eq_finsetSum (lmbda : ℕ) (sigma0 : ℝ) (n : ℕ) :
    shuffle_gauss_rdp lmbda sigma0 n =
      Real.log (∑ parts : Nat.Partition lmbda,
        Real.exp (shuffle_term lmbda sigma0 n parts)) / ((lmbda : ℝ) - 1) := by
  rw [shuffle_gauss_rdp, stable_logsumexp, accel_asc, List.map_map, sum_map_toList]
  simp only [Function.comp_apply]

theorem sum_multinomialCount (l n : ℕ) :
    ∑ parts : Nat.Partition l, multinomialCount parts.parts l n = n ^ l := by
  classical
  have h := Finset.card_eq_sum_card_fiberwise
    (s := (Finset.univ : Finset (Fin l → Fin n)))
    (t := (Finset.univ : Finset (Nat.Partition l)))
    (f := fiberPartition) (fun x _ => Finset.mem_univ _)
  have hcard : (Finset.univ : Finset (Fin l → Fin n)).card = n ^ l := by
    simp [Fintype.card_fun]
  rw [hcard] at h
  rw [h]
  apply Finset.sum_congr rfl
  intro P _
  rw [multinomialCount]
  congr 1
  apply Finset.filter_congr
  intro f _
  constructor
  · intro hf
    exact Nat.Partition.ext (show (fiberPartition f).parts = P.parts from hf)
  · intro hf
    exact congrArg (fun p : Nat.Partition l => p.parts) hf

theorem sq_sum_parts_ge {l : ℕ} (P : Nat.Partition l) :
    l ≤ (P.parts.map fun i => i ^ 2).sum := by
  have h1 : (P.parts.map fun i => i).sum ≤ (P.parts.map fun i => i ^ 2).sum := by
    apply Multiset.sum_map_le_sum_map
    intro i hi
    have hpos : 0 < i := P.parts_pos hi
    calc i = i ^ 1 := (pow_one i).symm
      _ ≤ i ^ 2 := Nat.pow_le_pow_right hpos (by omega)
  have h2 : (P.parts.map fun i => i).sum = l := by
    rw [Multiset.map_id']
    exact P.parts_sum
  omega

theorem one_le_sum_exp_shuffle (lmbda n : ℕ) (sigma0 : ℝ)
    (hs : 0 < sigma0) (hn : 1 ≤ n) :
    1 ≤ ∑ parts : Nat.Partition lmbda,
      Real.exp (shuffle_term lmbda sigma0 n parts) := by
  have hn0 : (0 : ℝ) < (n : ℝ) := by exact_mod_cast hn
  have hnR : (0 : ℝ) < (n : ℝ) ^ lmbda := pow_pos hn0 lmbda
  have key : ∀ parts : Nat.Partition lmbda,
      ((multinomialCount parts.parts lmbda n : ℕ) : ℝ) / ((n : ℝ) ^ lmbda)
        ≤ Real.exp (shuffle_term lmbda sigma0 n parts) := by
    intro parts
    rcases Nat.eq_zero_or_pos (multinomialCount parts.parts lmbda n) with hz | hp
    · rw [hz]
      simp only [Nat.cast_zero, zero_div]
      exact le_of_lt (Real.exp_pos _)
    · have hcR : (0 : ℝ) < ((multinomialCount parts.parts lmbda n : ℕ) : ℝ) := by
        exact_mod_cast hp
      have hq : 0 ≤ ((((parts.parts.map fun i => i ^ 2).sum : ℕ) : ℝ) - lmbda)
          / (2 * sigma0 ^ 2) := by
        apply div_nonneg
        · have hle := sq_sum_parts_ge parts
          have hcast : (lmbda : ℝ)
              ≤ (((parts.parts.map fun i => i ^ 2).sum : ℕ) : ℝ) := by
            exact_mod_cast hle
          linarith
        · positivity
      have hexp : Real.exp (shuffle_term lmbda sigma0 n parts)
          = ((multinomialCount parts.parts lmbda n : ℕ) : ℝ)
            * Real.exp (((((parts.parts.map fun i => i ^ 2).sum : ℕ) : ℝ) - lmbda)
              / (2 * sigma0 ^ 2)) / ((n : ℝ) ^ lmbda) := by
        rw [shuffle_term, eff_log_multinomial_coeff, Real.exp_sub, Real.exp_add,
          Real.exp_log hcR, ← Real.log_pow, Real.exp_log hnR]
      rw [hexp]
      have hmul : ((multinomialCount parts.parts lmbda n : ℕ) : ℝ)
          ≤ ((multinomialCount parts.parts lmbda n : ℕ) : ℝ)
            * Real.exp (((((parts.parts.map fun i => i ^ 2).sum : ℕ) : ℝ) - lmbda)
              / (2 * sigma0 ^ 2)) :=
        le_mul_of_one_le_right (le_of_lt hcR) (Real.one_le_exp hq)
      exact div_le_div_of_nonneg_right hmul hnR.le
  calc (1 : ℝ) = ((n : ℝ) ^ lmbda) / ((n : ℝ) ^ lmbda) := by
        rw [div_self (ne_of_gt hnR)]
    _ = ∑ parts : Nat.Partition lmbda,
          ((multinomialCount parts.parts lmbda n : ℕ) : ℝ) / ((n : ℝ) ^ lmbda) := by
        rw [← Finset.sum_div]
        congr 1
        rw [← Nat.cast_sum]
        rw [sum_multinomialCount]
        push_cast
        ring
    _ ≤ ∑ parts : Nat.Partition lmbda,
          Real.exp (shuffle_term lmbda sigma0 n parts) :=
        Finset.sum_le_sum fun p _ => key p

theorem shuffle_gauss_rdp_nonneg (lmbda n : ℕ) (sigma0 : ℝ)
    (h2 : 2 ≤ lmbda) (hs : 0 < sigma0) (hn : 1 ≤ n) :
    0 ≤ shuffle_gauss_rdp lmbda sigma0 n := by
  rw [shuffle_gauss_rdp_eq_finsetSum]
  apply div_nonneg
  · exact Real.log_nonneg (one_le_sum_exp_shuffle lmbda n sigma0 hs hn)
  · have : (2 : ℝ) ≤ (lmbda : ℝ) := by exact_mod_cast h2
    linarith

theorem anyNonzero_zero (m : ℕ) : ¬ anyNonzero m (fun _ => 0) := by
  rintro ⟨k, -, hk⟩
  exact hk rfl

theorem fillOrders_at {m : ℕ} (f c : ℕ → ℝ) {k : ℕ} (h1 : 1 ≤ k) (h2 : k < m) :
    fillOrders m f c k = f (k + 1) := by
  simp [fillOrders, h1, h2]

/-- Claim C4: for every integer order `lmbda ≥ 2`, noise scale `sigma0 > 0`
and population size `n ≥ 1`, `shuffle_gauss_rdp(lmbda, sigma0, n)` equals the
stable log-sum-exp, over all integer partitions of `lmbda`, of the terms
`log_multinomial_coeff(partition, n) + (sum(p_i^2) - lmbda)/(2*sigma0^2)
- lmbda*log(n)`, divided by `lmbda - 1`. -/
theorem claim_C4 (lmbda n : ℕ) (sigma0 : ℝ)
    (h2 : 2 ≤ lmbda) (hs : 0 < sigma0) (hn : 1 ≤ n) :
    shuffle_gauss_rdp lmbda sigma0 n =
      Real.log (∑ parts : Nat.Partition lmbda, Real.exp
        (eff_log_multinomial_coeff parts n
          + ((((parts.parts.map fun i => i ^ 2).sum : ℕ) : ℝ) - lmbda)
            / (2 * sigma0 ^ 2)
          - lmbda * Real.log n)) / ((lmbda : ℝ) - 1) :=
  shuffle_gauss_rdp_eq_finsetSum lmbda sigma0 n

theorem claim_C4_witness :
    (2 ≤ 2) ∧ (0 < (1 : ℝ)) ∧ (1 ≤ 2) ∧
    shuffle_gauss_rdp 2 1 2 =
      Real.log (∑ parts : Nat.Partition 2, Real.exp
        (eff_log_multinomial_coeff parts 2
          + ((((parts.parts.map fun i => i ^ 2).sum : ℕ) : ℝ) - 2)
            / (2 * (1 : ℝ) ^ 2)
          - 2 * Real.log 2)) / ((2 : ℝ) - 1) := by
  refine ⟨le_refl 2, one_pos, by omega, ?_⟩
  have h := claim_C4 2 2 1 (le_refl 2) one_pos (by omega)
  simpa using h

/-- Claim C5: for every order `lmbda ≥ 2`, rate `gamma ∈ (0,1]` and curve `c`,
`_subshuff_gauss_rdp(lmbda, gamma, c)` is the stable log-sum-exp of the
identity term `0`, the second-moment term
`2*log(gamma) + log_binom(lmbda,2) + log(min(4*exp(r)-4, 2*exp(r)))` with `r`
the curve value at order 2 (index 1), and, for each remaining `j` up to
`lmbda`, the term `j*log(gamma) + log_binom(lmbda,j) + (j-1)*c[j-1]`, all
divided by `lmbda - 1`. -/
theorem claim_C5 (lmbda : ℕ) (gamma : ℝ) (c : ℕ → ℝ)
    (h2 : 2 ≤ lmbda) (hg0 : 0 < gamma) (hg1 : gamma ≤ 1) :
    _subshuff_gauss_rdp lmbda gamma c =
      Real.log (Real.exp 0
        + Real.exp (2 * Real.log gamma + logBinomC lmbda 2
            + Real.log (min (4 * Real.exp (c 1) - 4) (2 * Real.exp (c 1))))
        + ∑ j ∈ Finset.Icc 3 lmbda, Real.exp ((j : ℝ) * Real.log gamma
            + logBinomC lmbda j + ((j : ℝ) - 1) * c (j - 1)))
      / ((lmbda : ℝ) - 1) := by
  have hdef : _subshuff_gauss_rdp lmbda gamma c
      = Real.log ((((0 : ℝ) :: (2 * Real.log gamma + logBinomC lmbda 2
            + Real.log (min (4 * Real.exp (c 1) - 4) (2 * Real.exp (c 1))))
          :: ((List.range' 3 (lmbda - 2)).map fun (j : ℕ) =>
            (j : ℝ) * Real.log gamma + logBinomC lmbda j
              + ((j : ℝ) - 1) * c (j - 1))).map Real.exp).sum)
          / ((lmbda : ℝ) - 1) := rfl
  rw [hdef, List.map_cons, List.map_cons, List.sum_cons, List.sum_cons, List.map_map]
  have hconv : (((List.range' 3 (lmbda - 2)).map (Real.exp ∘ fun (j : ℕ) =>
      (j : ℝ) * Real.log gamma + logBinomC lmbda j
        + ((j : ℝ) - 1) * c (j - 1))).sum)
      = ∑ j ∈ Finset.Icc 3 lmbda, Real.exp ((j : ℝ) * Real.log gamma
          + logBinomC lmbda j + ((j : ℝ) - 1) * c (j - 1)) := by
    rw [sum_map_rangeAux]
    rw [← Nat.Ico_succ_right, Finset.sum_Ico_eq_sum_range]
    have hlen : lmbda + 1 - 3 = lmbda - 2 := by omega
    rw [hlen]
    apply Finset.sum_congr rfl
    intro i _
    rfl
  rw [hconv, ← add_assoc]

theorem claim_C5_witness :
    (2 ≤ 2) ∧ (0 < (1 : ℝ)) ∧ ((1 : ℝ) ≤ 1) ∧
    _subshuff_gauss_rdp 2 1 (fun _ => 1) =
      Real.log (Real.exp 0
        + Real.exp (2 * Real.log 1 + logBinomC 2 2
            + Real.log (min (4 * Real.exp 1 - 4) (2 * Real.exp 1)))
        + ∑ j ∈ Finset.Icc (3 : ℕ) 2, Real.exp ((j : ℝ) * Real.log 1
            + logBinomC 2 j + ((j : ℝ) - 1) * 1))
      / ((2 : ℝ) - 1) := by
  refine ⟨le_refl 2, one_pos, le_refl 1, ?_⟩
  have h := claim_C5 2 1 (fun _ => 1) (le_refl 2) one_pos (le_refl 1)
  simpa using h

/-- Claim C9: for all valid mechanism parameters (`sigma0 > 0`, `n ≥ 1`,
`0 < gamma ≤ 1`) and every order `lmbda ≥ 2`, both the Evaluator output
`shuffle_gauss_rdp` and the Amplifier output `_subshuff_gauss_rdp` on a
non-negative input curve are non-negative. -/
theorem claim_C9 (lmbda n : ℕ) (sigma0 gamma : ℝ) (c : ℕ → ℝ)
    (h2 : 2 ≤ lmbda) (hs : 0 < sigma0) (hn : 1 ≤ n)
    (hg0 : 0 < gamma) (hg1 : gamma ≤ 1) (hc : ∀ k, 0 ≤ c k) :
    0 ≤ shuffle_gauss_rdp lmbda sigma0 n ∧ 0 ≤ _subshuff_gauss_rdp lmbda gamma c :=
  ⟨shuffle_gauss_rdp_nonneg lmbda n sigma0 h2 hs hn,
   le_of_lt (_subshuff_gauss_rdp_pos lmbda gamma c h2)⟩

theorem claim_C9_witness :
    (2 ≤ 2) ∧ (0 < (1 : ℝ)) ∧ (1 ≤ 2) ∧ (0 < (1 : ℝ)) ∧ ((1 : ℝ) ≤ 1)
    ∧ (∀ k : ℕ, (0 : ℝ) ≤ (fun _ => (0 : ℝ)) k)
    ∧ (0 ≤ shuffle_gauss_rdp 2 1 2 ∧ 0 ≤ _subshuff_gauss_rdp 2 1 (fun _ => 0)) :=
  ⟨le_refl 2, one_pos, by omega, one_pos, le_refl 1, fun _ => le_refl 0,
   claim_C9 2 2 1 1 (fun _ => 0) (le_refl 2) one_pos (by omega) one_pos
     (le_refl 1) (fun _ => le_refl 0)⟩

/-- Claim C10: `shuffle_gauss_rdp` itself performs no order validation — the
`_check_lmbda` guard is applied only inside `_SubShuffGaussRDPtoDP.subshuff`,
which at `lmbda = 1` raises the descriptive range error; `shuffle_gauss_rdp`
at `lmbda = 1` instead evaluates its final division with a zero denominator
(`lmbda - 1 = 0`), so the division is well defined only under the
precondition `lmbda ≥ 2`. -/
theorem claim_C10 (sigma0 gamma : ℝ) (n subno : ℕ) :
    USubShuff_subshuff sigma0 subno 1 gamma
        = Except.error "lmbda must be larger than 1"
    ∧ shuffle_gauss_rdp 1 sigma0 n
        = stable_logsumexp ((accel_asc 1).map (shuffle_term 1 sigma0 n)) / 0 := by
  constructor
  · rfl
  · rw [shuffle_gauss_rdp]
    norm_num

theorem deltaInRange_not {delta : ℝ} (hd0 : 0 ≤ delta) (hd1 : delta ≤ 1) :
    ¬ deltaOutOfRange delta := by
  rw [deltaOutOfRange]
  push_neg
  exact ⟨hd0, hd1⟩

/-- Claim C3: for `ShuffGaussRDPtoDP` (and subclasses inheriting `get_eps`
unchanged) with a populated curve of length `m`, a valid `delta` in `[0,1]`
and a positive `coeff`, `get_eps(delta, coeff)` returns the pair
`(epsilon, best_lambda)` where `epsilon` is the minimum over all orders
`i = 1..m` of `fun_int(i, delta, coeff, curve)` and `best_lambda` is the order
achieving it; ties are resolved to the lowest order of the grid scan. -/
theorem claim_C3 (funInt : ℕ → ℝ → ℕ → (ℕ → ℝ) → ℝ) (m : ℕ) (RDPs_int : ℕ → ℝ)
    (delta : ℝ) (coeff : ℕ) (hm : 1 ≤ m) (hco : 1 ≤ coeff)
    (hd0 : 0 ≤ delta) (hd1 : delta ≤ 1) (hinit : anyNonzero m RDPs_int) :
    ∃ eps lam,
      ShuffGauss_get_eps funInt m RDPs_int delta coeff = Except.ok (eps, lam)
      ∧ 1 ≤ lam ∧ lam ≤ m
      ∧ eps = funInt lam delta coeff RDPs_int
      ∧ (∀ i, 1 ≤ i → i ≤ m → eps ≤ funInt i delta coeff RDPs_int)
      ∧ (∀ i, 1 ≤ i → i < lam → eps < funInt i delta coeff RDPs_int) := by
  classical
  set l : List ℝ := (List.range m).map fun k => funInt (k + 1) delta coeff RDPs_int
    with hl
  have hlen : l.length = m := by simp [hl]
  have hne : l ≠ [] := by
    intro h0
    rw [h0] at hlen
    simp at hlen
    omega
  have hget : ∀ k, k < m → l.getD k 0 = funInt (k + 1) delta coeff RDPs_int := by
    intro k hk
    have hk2 : k < l.length := by omega
    rw [List.getD_eq_getElem l 0 hk2]
    simp [hl]
  have hb : argminIdx l < m := by
    have := argminIdx_lt_length hne
    omega
  refine ⟨l.getD (argminIdx l) 0, argminIdx l + 1, ?_, ?_, ?_, ?_, ?_, ?_⟩
  · rw [ShuffGauss_get_eps, if_neg (deltaInRange_not hd0 hd1), if_pos hinit]
  · omega
  · omega
  · rw [hget (argminIdx l) hb]
  · intro i h1 h2
    have hidx : i - 1 < l.length := by omega
    have hle := argminIdx_getD_le (l := l) (i := i - 1) hidx
    rw [hget (i - 1) (by omega)] at hle
    have hi1 : i - 1 + 1 = i := by omega
    rw [hi1] at hle
    exact hle
  · intro i h1 hlt
    have hidx : i - 1 < argminIdx l := by omega
    have hlt2 := argminIdx_getD_lt (l := l) (i := i - 1) hidx
    rw [hget (i - 1) (by omega)] at hlt2
    have hi1 : i - 1 + 1 = i := by omega
    rw [hi1] at hlt2
    exact hlt2

theorem claim_C3_witness :
    (1 ≤ 2) ∧ ((0 : ℝ) ≤ 1 / 2) ∧ ((1 : ℝ) / 2 ≤ 1)
    ∧ anyNonzero 2 (fun _ => 1)
    ∧ ∃ eps lam,
      ShuffGauss_get_eps (fun t _ _ _ => (t : ℝ)) 2 (fun _ => 1) (1 / 2) 1
          = Except.ok (eps, lam)
      ∧ 1 ≤ lam ∧ lam ≤ 2
      ∧ eps = ((lam : ℕ) : ℝ)
      ∧ (∀ i, 1 ≤ i → i ≤ 2 → eps ≤ ((i : ℕ) : ℝ))
      ∧ (∀ i, 1 ≤ i → i < lam → eps < ((i : ℕ) : ℝ)) := by
  refine ⟨by omega, by norm_num, by norm_num, ⟨0, by omega, one_ne_zero⟩, ?_⟩
  exact claim_C3 (fun t _ _ _ => (t : ℝ)) 2 (fun _ => 1) (1 / 2) 1 (by omega)
    (by omega) (by norm_num) (by norm_num) ⟨0, by omega, one_ne_zero⟩

/-- Claim C8 (divergence witness): on an all-zero curve — which is what an
accountant with `subno = 0` is specified to hold — `get_eps` fails with the
not-initialized error instead of returning `epsilon ≈ 0`, because the
`RDPs_int.any()` memoization sentinel cannot distinguish "legitimately zero"
from "not yet computed". -/
theorem claim_C8 (funInt : ℕ → ℝ → ℕ → (ℕ → ℝ) → ℝ) (m : ℕ)
    (delta : ℝ) (coeff : ℕ) (hd0 : 0 ≤ delta) (hd1 : delta ≤ 1) :
    ShuffGauss_get_eps funInt m (fun _ => 0) delta coeff
      = Except.error "The RDPs are not initialized! Run get_shuff first!" := by
  rw [ShuffGauss_get_eps, if_neg (deltaInRange_not hd0 hd1),
    if_neg (anyNonzero_zero m)]

theorem claim_C8_witness :
    ((0 : ℝ) ≤ 1 / 2) ∧ ((1 : ℝ) / 2 ≤ 1) ∧
    ShuffGauss_get_eps (fun _ _ _ _ => (0 : ℝ)) 3 (fun _ => 0) (1 / 2) 1
      = Except.error "The RDPs are not initialized! Run get_shuff first!" :=
  ⟨by norm_num, by norm_num,
   claim_C8 (fun _ _ _ _ => (0 : ℝ)) 3 (1 / 2) 1 (by norm_num) (by norm_num)⟩

theorem anyNonzero_fill_amplified (m : ℕ) (sigma0 gamma : ℝ) (subno : ℕ)
    (c : ℕ → ℝ) (hm : 2 ≤ m) :
    anyNonzero m (fillOrders m
      (fun i => get_subshuff_gauss_rdp i sigma0 gamma subno) c) :=
  ⟨1, by omega, by
    rw [fillOrders_at _ _ (le_refl 1) (by omega)]
    exact ne_of_gt (_subshuff_gauss_rdp_pos 2 gamma _ (le_refl 2))⟩

/-- Claim C6 (amended): for the `SubShuffGaussRDPtoDP` pair, the filled curves
of the two implementations coincide, but `_SubShuffGaussRDPtoDP.get_eps`
applies the external conversion at order `i - 1` where the public class
applies it at order `i`; hence the underscore result equals the public
pipeline (fill, then `get_eps`) with the conversion function precomposed with
the order shift `t ↦ t - 1`, not with the conversion applied identically. -/
theorem claim_C6 (funInt : ℕ → ℝ → ℕ → (ℕ → ℝ) → ℝ) (sigma0 : ℝ)
    (n subno m : ℕ) (delta : ℝ) (coeff : ℕ) (hm : 2 ≤ m) :
    USubShuff_get_eps funInt sigma0 n subno m delta coeff
      = ShuffGauss_get_eps (fun t d cf curve => funInt (t - 1) d cf curve) m
          (SubShuff_get_subshuff sigma0 n subno m (fun _ => 0)) delta coeff := by
  classical
  have hcurve : SubShuff_get_subshuff sigma0 n subno m (fun _ => 0)
      = USubShuff_subshuffCurve sigma0 n subno m := by
    rw [SubShuff_get_subshuff, if_neg (anyNonzero_zero m)]
    rfl
  have hpos : anyNonzero m (USubShuff_subshuffCurve sigma0 n subno m) :=
    anyNonzero_fill_amplified m sigma0 ((subno : ℝ) / n) subno (fun _ => 0) hm
  by_cases hd : deltaOutOfRange delta
  · rw [USubShuff_get_eps, ShuffGauss_get_eps, if_pos hd, if_pos hd]
  · rw [USubShuff_get_eps, ShuffGauss_get_eps, if_neg hd, if_neg hd, hcurve,
      if_pos hpos]

theorem claim_C6_witness :
    (2 ≤ 2) ∧
    USubShuff_get_eps (fun t _ _ _ => (t : ℝ)) 1 2 2 2 (1 / 2) 1
      = ShuffGauss_get_eps
          (fun t d cf curve => (fun (u : ℕ) (_ : ℝ) (_ : ℕ) (_ : ℕ → ℝ) =>
            (u : ℝ)) (t - 1) d cf curve) 2
          (SubShuff_get_subshuff 1 2 2 2 (fun _ => 0)) (1 / 2) 1 :=
  ⟨le_refl 2, claim_C6 (fun t _ _ _ => (t : ℝ)) 1 2 2 2 (1 / 2) 1 (le_refl 2)⟩

theorem argminIdx_pair_le {a b : ℝ} (h : a ≤ b) : argminIdx [a, b] = 0 := by
  rw [argminIdx, if_pos]
  rw [List.minimum_singleton]
  exact_mod_cast h

/-- Counterexample to claim C6: with a common external conversion
`fun_int(t, ...) = t`, parameters `(sigma0, n, subno/shuffn, m)
= (1, 2, 2, 2)`, `delta = 1/2` and `coeff = 1`, the underscore implementation
returns `(0, 1)` while the public pipeline returns `(1, 1)` — the two
implementations do not return the same pair, because the underscore `get_eps`
evaluates the conversion at order `i - 1` instead of `i`. -/
theorem claim_C6_counterexample :
    USubShuff_get_eps (fun t _ _ _ => (t : ℝ)) 1 2 2 2 (1 / 2) 1
      ≠ ShuffGauss_get_eps (fun t _ _ _ => (t : ℝ)) 2
          (SubShuff_get_subshuff 1 2 2 2 (fun _ => 0)) (1 / 2) 1 := by
  have hd : ¬ deltaOutOfRange (1 / 2 : ℝ) :=
    deltaInRange_not (by norm_num) (by norm_num)
  have hL : USubShuff_get_eps (fun t _ _ _ => (t : ℝ)) 1 2 2 2 (1 / 2) 1
      = Except.ok ((0 : ℝ), 1) := by
    rw [USubShuff_get_eps, if_neg hd]
    show Except.ok (((List.range 2).map fun k => ((k + 1 - 1 : ℕ) : ℝ)).getD
      (argminIdx ((List.range 2).map fun k => ((k + 1 - 1 : ℕ) : ℝ))) 0,
      argminIdx ((List.range 2).map fun k => ((k + 1 - 1 : ℕ) : ℝ)) + 1)
      = Except.ok ((0 : ℝ), 1)
    have hlist : ((List.range 2).map fun k => ((k + 1 - 1 : ℕ) : ℝ)) = [0, 1] := by
      norm_num [List.range_succ]
    rw [hlist, argminIdx_pair_le (by norm_num)]
    rfl
  have hcurve : SubShuff_get_subshuff 1 2 2 2 (fun _ => 0)
      = USubShuff_subshuffCurve 1 2 2 2 := by
    rw [SubShuff_get_subshuff, if_neg (anyNonzero_zero 2)]
    rfl
  have hpos : anyNonzero 2 (USubShuff_subshuffCurve 1 2 2 2) :=
    anyNonzero_fill_amplified 2 1 ((2 : ℝ) / 2) 2 (fun _ => 0) (le_refl 2)
  have hR : ShuffGauss_get_eps (fun t _ _ _ => (t : ℝ)) 2
      (SubShuff_get_subshuff 1 2 2 2 (fun _ => 0)) (1 / 2) 1
      = Except.ok ((1 : ℝ), 1) := by
    rw [ShuffGauss_get_eps, if_neg hd, hcurve, if_pos hpos]
    show Except.ok (((List.range 2).map fun k => ((k + 1 : ℕ) : ℝ)).getD
      (argminIdx ((List.range 2).map fun k => ((k + 1 : ℕ) : ℝ))) 0,
      argminIdx ((List.range 2).map fun k => ((k + 1 : ℕ) : ℝ)) + 1)
      = Except.ok ((1 : ℝ), 1)
    have hlist : ((List.range 2).map fun k => ((k + 1 : ℕ) : ℝ)) = [1, 2] := by
      norm_num [List.range_succ]
    rw [hlist, argminIdx_pair_le (by norm_num)]
    rfl
  rw [hL, hR]
  intro hcontra
  have h1 : ((0 : ℝ), 1) = ((1 : ℝ), 1) := Except.ok.inj hcontra
  have h2 : (0 : ℝ) = 1 := congrArg Prod.fst h1
  norm_num at h2

/-- Counterexample to claim C7: at `gamma = 1` with the curve constantly `1`
(so the order-2 value is `1`), the Amplifier returns `log(1 + 2e) ≈ 1.86`,
which is strictly greater than the input curve value `1` at order 2 — not
equal to it. -/
theorem claim_C7_counterexample :
    _subshuff_gauss_rdp 2 1 (fun _ => 1) ≠ (fun _ => (1 : ℝ)) (2 - 1) := by
  have he2 : (2 : ℝ) ≤ Real.exp 1 := by
    have := Real.exp_one_gt_d9
    linarith
  have hmin : min (4 * Real.exp 1 - 4) (2 * Real.exp 1) = 2 * Real.exp 1 := by
    rw [min_eq_right]
    linarith
  have hval : _subshuff_gauss_rdp 2 1 (fun _ => 1)
      = Real.log (1 + 2 * Real.exp 1) := by
    have hdef : _subshuff_gauss_rdp 2 1 (fun _ => 1)
        = Real.log (Real.exp 0 + (Real.exp (2 * Real.log 1 + logBinomC 2 2
            + Real.log (min (4 * Real.exp 1 - 4) (2 * Real.exp 1))) + 0))
          / ((2 : ℝ) - 1) := rfl
    rw [hdef, hmin]
    have hbin : logBinomC 2 2 = 0 := by
      rw [logBinomC]
      norm_num
    rw [hbin]
    have h2e : (0 : ℝ) < 2 * Real.exp 1 := by positivity
    rw [Real.log_one]
    rw [show 2 * (0 : ℝ) + 0 + Real.log (2 * Real.exp 1)
        = Real.log (2 * Real.exp 1) by ring]
    rw [Real.exp_log h2e, Real.exp_zero]
    norm_num
  rw [hval]
  simp only
  intro hcontra
  have hgt : (1 : ℝ) < Real.log (1 + 2 * Real.exp 1) := by
    have h1 : Real.exp 1 < 1 + 2 * Real.exp 1 := by
      have := Real.exp_pos 1
      linarith
    have h2 := Real.log_lt_log (Real.exp_pos 1) h1
    rwa [Real.log_exp] at h2
  rw [hcontra] at hgt
  exact lt_irrefl 1 hgt

/-- Claim C7 (amended): with subsampling rate `gamma = 1` and a non-negative
shuffle-RDP curve, the Amplifier output at every order `lmbda ≥ 2` is at least
the input curve value at that order (it is not equal in general: the identity
term of the moment sum makes it strictly larger, see the counterexample). -/
theorem claim_C7 (lmbda : ℕ) (c : ℕ → ℝ) (h2 : 2 ≤ lmbda) (hc : ∀ k, 0 ≤ c k) :
    c (lmbda - 1) ≤ _subshuff_gauss_rdp lmbda 1 c := by
  have hdef : _subshuff_gauss_rdp lmbda 1 c
      = Real.log ((((0 : ℝ) :: (2 * Real.log 1 + logBinomC lmbda 2
            + Real.log (min (4 * Real.exp (c 1) - 4) (2 * Real.exp (c 1))))
          :: ((List.range' 3 (lmbda - 2)).map fun (j : ℕ) =>
            (j : ℝ) * Real.log 1 + logBinomC lmbda j
              + ((j : ℝ) - 1) * c (j - 1))).map Real.exp).sum)
          / ((lmbda : ℝ) - 1) := rfl
  set S : ℝ := (((0 : ℝ) :: (2 * Real.log 1 + logBinomC lmbda 2
        + Real.log (min (4 * Real.exp (c 1) - 4) (2 * Real.exp (c 1))))
      :: ((List.range' 3 (lmbda - 2)).map fun (j : ℕ) =>
        (j : ℝ) * Real.log 1 + logBinomC lmbda j
          + ((j : ℝ) - 1) * c (j - 1))).map Real.exp).sum with hS
  have hlm1 : (0 : ℝ) < (lmbda : ℝ) - 1 := by
    have : (2 : ℝ) ≤ (lmbda : ℝ) := by exact_mod_cast h2
    linarith
  have hkey : Real.exp (((lmbda : ℝ) - 1) * c (lmbda - 1)) ≤ S := by
    rcases Nat.lt_or_ge lmbda 3 with hl2 | hl3
    · -- lmbda = 2: S = 1 + exp(term2), and the second-moment term covers
      -- exp(c 1) - 1 whenever c 1 ≥ 0
      have hl : lmbda = 2 := by omega
      subst hl
      rw [hS]
      simp only [List.range', List.map_nil, List.map_cons, List.sum_cons,
        List.sum_nil, add_zero]
      rw [Real.exp_zero, Real.log_one]
      have hbin : logBinomC 2 2 = 0 := by
        rw [logBinomC]
        norm_num
      rw [hbin]
      have hsimp : 2 * (0 : ℝ) + 0 + Real.log (min (4 * Real.exp (c 1) - 4)
          (2 * Real.exp (c 1))) = Real.log (min (4 * Real.exp (c 1) - 4)
          (2 * Real.exp (c 1))) := by ring
      rw [hsimp]
      have hc1 : 0 ≤ c 1 := hc 1
      have hec1 : 1 ≤ Real.exp (c 1) := Real.one_le_exp hc1
      have hcast : (((2 : ℕ) : ℝ)) - 1 = 1 := by norm_num
      rw [hcast, one_mul]
      norm_num
      rcases eq_or_lt_of_le hec1 with heq | hlt
      · -- c 1 = 0: the min is 0 and Real.log 0 = 0, but 1 + exp 0 = 2 ≥ 1
        have hmin0 : min (4 * Real.exp (c 1) - 4) (2 * Real.exp (c 1)) = 0 := by
          rw [min_eq_left]
          · rw [← heq]
            ring
          · rw [← heq]
            linarith
        rw [hmin0]
        rw [Real.log_zero, Real.exp_zero, ← heq]
        linarith
      · -- c 1 > 0: the min is positive, exp (log min) = min ≥ exp (c 1) - 1
        have hminpos : 0 < min (4 * Real.exp (c 1) - 4) (2 * Real.exp (c 1)) := by
          apply lt_min
          · linarith
          · linarith
        rw [Real.exp_log hminpos]
        have hge : Real.exp (c 1) - 1 ≤ min (4 * Real.exp (c 1) - 4)
            (2 * Real.exp (c 1)) := by
          apply le_min
          · linarith
          · linarith
        linarith
    · -- lmbda ≥ 3: the j = lmbda moment term is exactly (lmbda-1) * c (lmbda-1)
      have hmem : lmbda ∈ List.range' 3 (lmbda - 2) := by
        rw [List.mem_range'_1]
        omega
      have hmem2 : Real.exp ((lmbda : ℝ) * Real.log 1 + logBinomC lmbda lmbda
          + ((lmbda : ℝ) - 1) * c (lmbda - 1))
          ∈ (((0 : ℝ) :: (2 * Real.log 1 + logBinomC lmbda 2
            + Real.log (min (4 * Real.exp (c 1) - 4) (2 * Real.exp (c 1))))
          :: ((List.range' 3 (lmbda - 2)).map fun (j : ℕ) =>
            (j : ℝ) * Real.log 1 + logBinomC lmbda j
              + ((j : ℝ) - 1) * c (j - 1))).map Real.exp) := by
        simp only [List.map_cons, List.mem_cons, List.map_map, List.mem_map]
        right
        right
        exact ⟨lmbda, hmem, rfl⟩
      have hterm : (lmbda : ℝ) * Real.log 1 + logBinomC lmbda lmbda
          + ((lmbda : ℝ) - 1) * c (lmbda - 1)
          = ((lmbda : ℝ) - 1) * c (lmbda - 1) := by
        rw [Real.log_one, logBinomC, Nat.choose_self]
        norm_num
      have hle := List.single_le_sum (l := (((0 : ℝ) :: (2 * Real.log 1
          + logBinomC lmbda 2 + Real.log (min (4 * Real.exp (c 1) - 4)
            (2 * Real.exp (c 1))))
          :: ((List.range' 3 (lmbda - 2)).map fun (j : ℕ) =>
            (j : ℝ) * Real.log 1 + logBinomC lmbda j
              + ((j : ℝ) - 1) * c (j - 1))).map Real.exp))
        (fun x hx => by
          simp only [List.map_cons, List.mem_cons, List.map_map,
            List.mem_map] at hx
          rcases hx with rfl | rfl | ⟨y, _, rfl⟩
          · exact le_of_lt (Real.exp_pos 0)
          · exact le_of_lt (Real.exp_pos _)
          · exact le_of_lt (Real.exp_pos _)) _ hmem2
      rw [hterm] at hle
      exact hle
  have hlog : ((lmbda : ℝ) - 1) * c (lmbda - 1) ≤ Real.log S := by
    have h0 : (0 : ℝ) < Real.exp (((lmbda : ℝ) - 1) * c (lmbda - 1)) :=
      Real.exp_pos _
    have := Real.log_le_log h0 hkey
    rwa [Real.log_exp] at this
  rw [hdef, le_div_iff₀ hlm1, mul_comm]
  exact hlog

theorem ApproxSCI_components (sigma0 : ℝ) (n shuffn m : ℕ) (err : ℝ)
    (hm : 2 ≤ m) :
    ApproxSCI_get_subshuff sigma0 n shuffn m err
      = (fillOrders m (fun i => get_subshuff_gauss_rdp i sigma0 ((shuffn : ℝ) / n)
            ((⌊(1 - err) * (shuffn : ℝ)⌋).toNat + 1)) (fun _ => 0),
         fillOrders m (fun i => get_subshuff_gauss_rdp i sigma0
            ((shuffn : ℝ) / n) 1) (fun _ => 0),
         fillOrders m (fun i => get_subshuff_gauss_rdp i sigma0 ((shuffn : ℝ) / n)
            ((⌊(1 - err) * (shuffn : ℝ)⌋).toNat + 1)) (fun _ => 0)) := by
  have hz := anyNonzero_zero m
  have hfill : anyNonzero m (fillOrders m
      (fun i => get_subshuff_gauss_rdp i sigma0 ((shuffn : ℝ) / n)
        ((⌊(1 - err) * (shuffn : ℝ)⌋).toNat + 1)) (fun _ => 0)) :=
    anyNonzero_fill_amplified m sigma0 ((shuffn : ℝ) / n)
      ((⌊(1 - err) * (shuffn : ℝ)⌋).toNat + 1) (fun _ => 0) hm
  simp [ApproxSCI_get_subshuff, anyNonzero_zero, hfill]

/-- Claim C1 (code bug): after `ApproxSCIGaussRDPtoDP.get_subshuff()`, the
curve `RDPs_int` does NOT satisfy the Chernoff combination — it is strictly
below the claimed `stable_log_sum_exp` combination at every order `2 ≤ i ≤ m`.
`subshuff(displaced_n, self.RDPs_int)` fills `RDPs_int` in place, so the
combine loop's `RDPs_int.any() == False` gate is never taken and `RDPs_int`
stays equal to the `displaced_n`-amplified curve `subshuffRDPs_int`. -/
theorem claim_C1 (sigma0 : ℝ) (n shuffn m : ℕ) (err : ℝ) (i : ℕ)
    (hm : 2 ≤ m) (h2 : 2 ≤ i) (him : i ≤ m) :
    (ApproxSCI_get_subshuff sigma0 n shuffn m err).1 (i - 1)
      < stable_logsumexp
          [((i : ℝ) - 1) * (ApproxSCI_get_subshuff sigma0 n shuffn m err).2.1 (i - 1)
            + (-1 * (shuffn : ℝ) * err ^ 2 / 2),
           ((i : ℝ) - 1) * (ApproxSCI_get_subshuff sigma0 n shuffn m err).2.2 (i - 1)]
        / ((i : ℝ) - 1) := by
  rw [ApproxSCI_components sigma0 n shuffn m err hm]
  simp only
  have hpos : (0 : ℝ) < (i : ℝ) - 1 := by
    have : (2 : ℝ) ≤ (i : ℝ) := by exact_mod_cast h2
    linarith
  rw [lt_div_iff₀ hpos]
  have hgt := stable_logsumexp_pair_gt
    (((i : ℝ) - 1) * (fillOrders m (fun j => get_subshuff_gauss_rdp j sigma0
        ((shuffn : ℝ) / n) 1) (fun _ => 0)) (i - 1)
      + (-1 * (shuffn : ℝ) * err ^ 2 / 2))
    (((i : ℝ) - 1) * (fillOrders m (fun j => get_subshuff_gauss_rdp j sigma0
        ((shuffn : ℝ) / n) ((⌊(1 - err) * (shuffn : ℝ)⌋).toNat + 1))
        (fun _ => 0)) (i - 1))
  calc (fillOrders m (fun j => get_subshuff_gauss_rdp j sigma0 ((shuffn : ℝ) / n)
        ((⌊(1 - err) * (shuffn : ℝ)⌋).toNat + 1)) (fun _ => 0)) (i - 1)
        * ((i : ℝ) - 1)
      = ((i : ℝ) - 1) * (fillOrders m (fun j => get_subshuff_gauss_rdp j sigma0
          ((shuffn : ℝ) / n) ((⌊(1 - err) * (shuffn : ℝ)⌋).toNat + 1))
          (fun _ => 0)) (i - 1) := mul_comm _ _
    _ < stable_logsumexp
          [((i : ℝ) - 1) * (fillOrders m (fun j => get_subshuff_gauss_rdp j sigma0
              ((shuffn : ℝ) / n) 1) (fun _ => 0)) (i - 1)
            + (-1 * (shuffn : ℝ) * err ^ 2 / 2),
           ((i : ℝ) - 1) * (fillOrders m (fun j => get_subshuff_gauss_rdp j sigma0
              ((shuffn : ℝ) / n) ((⌊(1 - err) * (shuffn : ℝ)⌋).toNat + 1))
              (fun _ => 0)) (i - 1)] := hgt

theorem claim_C1_witness :
    (2 ≤ 2) ∧
    (ApproxSCI_get_subshuff 1 2 2 2 (1 / 2)).1 (2 - 1)
      < stable_logsumexp
          [((2 : ℝ) - 1) * (ApproxSCI_get_subshuff 1 2 2 2 (1 / 2)).2.1 (2 - 1)
            + (-1 * ((2 : ℕ) : ℝ) * (1 / 2) ^ 2 / 2),
           ((2 : ℝ) - 1) * (ApproxSCI_get_subshuff 1 2 2 2 (1 / 2)).2.2 (2 - 1)]
        / ((2 : ℝ) - 1) := by
  refine ⟨le_refl 2, ?_⟩
  have h := claim_C1 1 2 2 2 (1 / 2) 2 (le_refl 2) (le_refl 2) (le_refl 2)
  simpa using h

theorem multiset_sum_two {s : Multiset ℕ} (hpos : ∀ i ∈ s, 0 < i)
    (hsum : s.sum = 2) : s = {2} ∨ s = ({1, 1} : Multiset ℕ) := by
  rcases s with ⟨l⟩
  have hsum2 : l.sum = 2 := hsum
  have hpos2 : ∀ i ∈ l, 0 < i := fun i hi => hpos i hi
  rcases l with _ | ⟨a, _ | ⟨b, _ | ⟨c, t⟩⟩⟩
  · simp at hsum2
  · have ha : a = 2 := by simpa using hsum2
    subst ha
    left
    rfl
  · have ha : 0 < a := hpos2 a (by simp)
    have hb : 0 < b := hpos2 b (by simp)
    have hab : a + b = 2 := by simpa using hsum2
    have ha1 : a = 1 := by omega
    have hb1 : b = 1 := by omega
    subst ha1
    subst hb1
    right
    rfl
  · have ha : 0 < a := hpos2 a (by simp)
    have hb : 0 < b := hpos2 b (by simp)
    have hc : 0 < c := hpos2 c (by simp)
    have h3 : a + (b + (c + t.sum)) = 2 := by simpa using hsum2
    omega

/-- The partition `2 = 2`. -/
def part2 : Nat.Partition 2 :=
  ⟨{2}, by
    intro i hi
    rw [Multiset.mem_singleton] at hi
    omega, by simp⟩

/-- The partition `2 = 1 + 1`. -/
def part11 : Nat.Partition 2 :=
  ⟨{1, 1}, by
    intro i hi
    have h1 : i = 1 := by simpa using hi
    omega, by simp⟩

theorem univ_partition_two :
    (Finset.univ : Finset (Nat.Partition 2)) = {part2, part11} := by
  ext P
  simp only [Finset.mem_univ, true_iff, Finset.mem_insert, Finset.mem_singleton]
  rcases multiset_sum_two (fun i hi => P.parts_pos hi) P.parts_sum with h | h
  · left
    exact Nat.Partition.ext h
  · right
    exact Nat.Partition.ext h

theorem sum_partition_two (F : Nat.Partition 2 → ℝ) :
    ∑ P : Nat.Partition 2, F P = F part2 + F part11 := by
  rw [univ_partition_two]
  have hne : part2 ≠ part11 := by
    intro h
    have h2 := congrArg (fun p : Nat.Partition 2 => p.parts) h
    simp only [part2, part11] at h2
    exact absurd h2 (by decide)
  rw [Finset.sum_insert (by simpa using hne), Finset.sum_singleton]

theorem shuffle_gauss_rdp_two :
    shuffle_gauss_rdp 2 1 2 = Real.log ((1 + Real.exp 1) / 2) := by
  rw [shuffle_gauss_rdp_eq_finsetSum, sum_partition_two]
  have hterm2 : shuffle_term 2 1 2 part2 = 1 - Real.log 2 := by
    rw [shuffle_term, eff_log_multinomial_coeff]
    have hcnt : multinomialCount part2.parts 2 2 = 2 := by decide
    have hsq : ((part2.parts.map fun i => i ^ 2).sum : ℕ) = 4 := by decide
    rw [hcnt, hsq]
    push_cast
    ring
  have hterm11 : shuffle_term 2 1 2 part11 = -Real.log 2 := by
    rw [shuffle_term, eff_log_multinomial_coeff]
    have hcnt : multinomialCount part11.parts 2 2 = 2 := by decide
    have hsq : ((part11.parts.map fun i => i ^ 2).sum : ℕ) = 2 := by decide
    rw [hcnt, hsq]
    push_cast
    ring
  rw [hterm2, hterm11]
  have he1 : Real.exp (1 - Real.log 2) = Real.exp 1 / 2 := by
    rw [Real.exp_sub, Real.exp_log two_pos]
  have he2 : Real.exp (-Real.log 2) = 1 / 2 := by
    rw [Real.exp_neg, Real.exp_log two_pos]
    rw [one_div]
  rw [he1, he2]
  have hden : ((2 : ℕ) : ℝ) - 1 = 1 := by norm_num
  rw [hden, div_one]
  congr 1
  ring

/-- Counterexample to claim C2: for `SubGaussRDPtoDP(sigma0=1, n=2, shuffn=2,
m=2)`, the inherited `get_subshuff()` (which `SubGaussRDPtoDP` does not
override — it overrides `shuff`, used by `get_shuff()`) fills the order-2
entry with the amplified value `log(2e - 1) ≈ 1.49`, not with the closed form
`2 / (2 * sigma0^2) = 1`. -/
theorem claim_C2_counterexample :
    SubShuff_get_subshuff 1 2 2 2 (fun _ => 0) 1 ≠ 2 / (2 * (1 : ℝ) ^ 2) := by
  have hfillv : SubShuff_get_subshuff 1 2 2 2 (fun _ => 0) 1
      = get_subshuff_gauss_rdp 2 1 ((2 : ℝ) / 2) 2 := by
    rw [SubShuff_get_subshuff, if_neg (anyNonzero_zero 2)]
    rw [fillOrders_at _ _ (le_refl 1) (by omega)]
    norm_num
  have hr : shuffleCurve 1 2 1 = Real.log ((1 + Real.exp 1) / 2) := by
    rw [shuffleCurve]
    simp only [le_refl, if_pos]
    exact shuffle_gauss_rdp_two
  have hrpos : (0 : ℝ) < (1 + Real.exp 1) / 2 := by
    have := Real.exp_pos 1
    linarith
  have hexp_r : Real.exp (shuffleCurve 1 2 1) = (1 + Real.exp 1) / 2 := by
    rw [hr, Real.exp_log hrpos]
  have he_lb : (1 : ℝ) < Real.exp 1 := by
    have := Real.exp_one_gt_d9
    linarith
  have he_ub : Real.exp 1 < 3 := by
    have := Real.exp_one_lt_d9
    linarith
  have hmin : min (4 * Real.exp (shuffleCurve 1 2 1) - 4)
      (2 * Real.exp (shuffleCurve 1 2 1)) = 2 * Real.exp 1 - 2 := by
    rw [hexp_r]
    rw [min_eq_left]
    · ring
    · linarith
  have hval : get_subshuff_gauss_rdp 2 1 ((2 : ℝ) / 2) 2
      = Real.log (2 * Real.exp 1 - 1) := by
    rw [get_subshuff_gauss_rdp]
    have hdef : _subshuff_gauss_rdp 2 ((2 : ℝ) / 2) (shuffleCurve 1 2)
        = Real.log (Real.exp 0 + (Real.exp (2 * Real.log ((2 : ℝ) / 2)
            + logBinomC 2 2 + Real.log (min (4 * Real.exp (shuffleCurve 1 2 1) - 4)
              (2 * Real.exp (shuffleCurve 1 2 1)))) + 0))
          / (((2 : ℕ) : ℝ) - 1) := rfl
    rw [hdef, hmin]
    have h22 : (2 : ℝ) / 2 = 1 := by norm_num
    have hbin : logBinomC 2 2 = 0 := by
      rw [logBinomC]
      norm_num
    rw [h22, Real.log_one, hbin]
    have hterm : 2 * (0 : ℝ) + 0 + Real.log (2 * Real.exp 1 - 2)
        = Real.log (2 * Real.exp 1 - 2) := by ring
    rw [hterm]
    have hpos2 : (0 : ℝ) < 2 * Real.exp 1 - 2 := by linarith
    rw [Real.exp_log hpos2, Real.exp_zero]
    have hden : ((2 : ℕ) : ℝ) - 1 = 1 := by norm_num
    rw [hden, div_one]
    congr 1
    ring
  rw [hfillv, hval]
  intro hcontra
  have hsimp : (2 : ℝ) / (2 * (1 : ℝ) ^ 2) = 1 := by norm_num
  rw [hsimp] at hcontra
  have hgt : (1 : ℝ) < Real.log (2 * Real.exp 1 - 1) := by
    have h1 : Real.exp 1 < 2 * Real.exp 1 - 1 := by linarith
    have h2 := Real.log_lt_log (Real.exp_pos 1) h1
    rwa [Real.log_exp] at h2
  rw [hcontra] at hgt
  exact lt_irrefl 1 hgt

/-- Claim C2 (amended): for `SubGaussRDPtoDP`, it is the `get_shuff()` fill
(through the overridden `shuff`) — not `get_subshuff()` — that populates the
zero curve with the closed-form plain subsampled-Gaussian RDP: for every order
`2 ≤ lmbda ≤ m`, the entry at index `lmbda - 1` becomes
`lmbda / (2 * sigma0^2)`. -/
theorem claim_C2 (sigma0 : ℝ) (m lmbda : ℕ) (h2 : 2 ≤ lmbda) (hm : lmbda ≤ m) :
    SubGauss_get_shuff sigma0 m (fun _ => 0) (lmbda - 1)
      = (lmbda : ℝ) / (2 * sigma0 ^ 2) := by
  rw [SubGauss_get_shuff, if_neg (anyNonzero_zero m)]
  rw [fillOrders_at _ _ (by omega) (by omega)]
  have hl : lmbda - 1 + 1 = lmbda := by omega
  rw [hl]

theorem claim_C2_witness :
    (2 ≤ 2) ∧ (2 ≤ 2) ∧
    SubGauss_get_shuff 1 2 (fun _ => 0) (2 - 1) = ((2 : ℕ) : ℝ) / (2 * 1 ^ 2) :=
  ⟨le_refl 2, le_refl 2, claim_C2 1 2 2 (le_refl 2) (le_refl 2)⟩

theorem claim_C7_witness :
    (2 ≤ 2) ∧ (∀ k : ℕ, (0 : ℝ) ≤ (fun _ => (0 : ℝ)) k) ∧
    (fun _ => (0 : ℝ)) (2 - 1) ≤ _subshuff_gauss_rdp 2 1 (fun _ => 0) :=
  ⟨le_refl 2, fun _ => le_refl 0,
   claim_C7 2 (fun _ => 0) (le_refl 2) (fun _ => le_refl 0)⟩
